import Mathlib

/-!
# Verification of the folderSync one-way synchronization engine (src/sync.py)

Shallow embedding of the synchronization engine of `src/sync.py`.

Modelling conventions:

* A directory tree is the inductive `Node`: a file carries its byte content
  (`List Nat`) and a readability flag (`Bool`, `false` models a file whose
  `open` for reading raises — permission denied, vanished, …); a directory
  carries its ordered list of named entries, mirroring `os.listdir`.
  `os.listdir` never reports duplicate names; `wfNode` states that invariant.
* The MD5 digest of a byte string is modelled by the byte string itself: the
  spec treats fingerprint equality as content equality (collision risk is
  accepted as negligible), so an injective digest function is modelled by the
  identity.
* Filesystem paths below a root are lists of name segments (`List String`);
  `os.path.join` is list append, `os.path.relpath` of an event path below the
  source root yields its segment list.  Events naming the watched root itself
  (relpath ".") are outside the model.
* Caught per-item exceptions (`calculate_md5`'s except, the copy/remove
  excepts of `sync_folders`, `handle_event`'s except) are modelled by an
  `errored` flag / unchanged state; an exception that no handler catches
  (`os.listdir` on a non-directory) is `Except.error`, aborting the pass —
  in `main` only `KeyboardInterrupt` is caught, so it kills the process.
  Removal (`os.remove`/`shutil.rmtree` with `remove_readonly`) and
  `os.makedirs` are modelled as always succeeding.
* `shutil.copy2 src dst`: fails when `src` is unreadable; when `dst` names an
  existing directory it copies *into* that directory under `src`'s basename
  (and fails if that inner name is a directory); copies are readable.
* `shutil.copytree src dst` (only called when `dst` does not exist): creates
  the missing intermediate directories of `dst` (via `os.makedirs`) and
  copies the whole subtree; it fails (is a no-op here) when an intermediate
  path segment is an existing file.  Its internal per-file failures are not
  modelled (no claim depends on them).
-/

namespace FolderSync

/-- A node of a filesystem tree: a file (content bytes, readability) or a
directory with its ordered, named entries as reported by `os.listdir`. -/
inductive Node : Type where
  | file : List Nat → Bool → Node
  | dir : List (String × Node) → Node
deriving Repr

mutual

/-- Structural boolean equality on `Node`. -/
def Node.beq : Node → Node → Bool
  | .file c r, .file c' r' => c == c' && r == r'
  | .dir es, .dir es' => beqEntries es es'
  | _, _ => false

/-- Structural boolean equality on directory listings. -/
def beqEntries : List (String × Node) → List (String × Node) → Bool
  | [], [] => true
  | (m, u) :: rest, (m', u') :: rest' => m == m' && Node.beq u u' && beqEntries rest rest'
  | _, _ => false

end

mutual

theorem Node.beq_iff : ∀ a b : Node, Node.beq a b = true ↔ a = b
  | .file c r, .file c' r' => by simp [Node.beq]
  | .file _ _, .dir _ => by simp [Node.beq]
  | .dir _, .file _ _ => by simp [Node.beq]
  | .dir es, .dir es' => by
    simp only [Node.beq, beqEntries_iff es es', Node.dir.injEq]

theorem beqEntries_iff : ∀ a b : List (String × Node), beqEntries a b = true ↔ a = b
  | [], [] => by simp [beqEntries]
  | [], _ :: _ => by simp [beqEntries]
  | _ :: _, [] => by simp [beqEntries]
  | (m, u) :: rest, (m', u') :: rest' => by
    simp [beqEntries, Node.beq_iff u u', beqEntries_iff rest rest', Prod.ext_iff,
      and_assoc]

end

instance : DecidableEq Node := fun a b =>
  decidable_of_iff (Node.beq a b = true) (Node.beq_iff a b)

instance : BEq Node := ⟨Node.beq⟩

instance : LawfulBEq Node where
  eq_of_beq h := (Node.beq_iff _ _).mp h
  rfl := by intro a; exact (Node.beq_iff a a).mpr rfl

/-- Look up the entry named `n` in a directory listing (first match). -/
def findEntry : List (String × Node) → String → Option Node
  | [], _ => none
  | (m, u) :: rest, n => if m = n then some u else findEntry rest n

/-- Overwrite the first entry named `n`, or append a fresh one: the effect on
a directory of creating/overwriting the child `n` on disk. -/
def setEntry : List (String × Node) → String → Node → List (String × Node)
  | [], n, t => [(n, t)]
  | (m, u) :: rest, n, t => if m = n then (m, t) :: rest else (m, u) :: setEntry rest n t

/-- Apply `f` to the first entry named `n` (no-op when absent). -/
def updateEntry : List (String × Node) → String → (Node → Node) → List (String × Node)
  | [], _, _ => []
  | (m, u) :: rest, n, f => if m = n then (m, f u) :: rest else (m, u) :: updateEntry rest n f

/-- The node reached from `t` by following the path segments `p`
(`os.path.exists`/`os.path.isdir` queries are reads of this). -/
def getPath : Node → List String → Option Node
  | t, [] => some t
  | .file _ _, _ :: _ => none
  | .dir es, n :: rest =>
    match findEntry es n with
    | some t => getPath t rest
    | none => none

/-- Remove the node at path `p` (`os.remove` / `shutil.rmtree`); a no-op when
`p` is absent.  The watched root itself (`p = []`) is outside the model and
left unchanged. -/
def removePath : Node → List String → Node
  | t, [] => t
  | .file c r, _ :: _ => .file c r
  | .dir es, [n] => .dir (es.filter (fun q => ¬ (q.1 = n)))
  | .dir es, n :: m :: rest => .dir (updateEntry es n (fun t => removePath t (m :: rest)))

/-- `calculate_md5(file_path)` of src/sync.py: stream the file and return its
digest, or `none` after logging when any I/O error occurs (missing path,
unreadable file, path is a directory).  The digest is modelled by the
content itself (see the header). -/
def calculate_md5 : Option Node → Option (List Nat)
  | some (.file c true) => some c
  | _ => none

/-- `shutil.copy2` of the readable content `c` onto the directory entry `n`:
overwrite an existing file, create a missing one, or — when the entry is an
existing directory — copy into it under the same basename `n` (failing if
that inner entry is itself a directory). `none` = the raised error (caught by
the caller). -/
def copy2Entry (es : List (String × Node)) (n : String) (c : List Nat) :
    Option (List (String × Node)) :=
  match findEntry es n with
  | none => some (setEntry es n (.file c true))
  | some (.file _ _) => some (setEntry es n (.file c true))
  | some (.dir d) =>
    match findEntry d n with
    | some (.dir _) => none
    | _ => some (setEntry es n (.dir (setEntry d n (.file c true))))

/-- `shutil.copy2` of a source file with content `c`, readability `rd`, to the
path `p` of tree `t`: fails when the source is unreadable, when an
intermediate segment of `p` is missing or a file, or in the
inner-directory corner of `copy2Entry`. -/
def copy2At : Node → List String → List Nat → Bool → Option Node
  | _, _, _, false => none
  | _, [], _, true => none
  | .file _ _, _ :: _, _, true => none
  | .dir es, [n], c, true => (copy2Entry es n c).map .dir
  | .dir es, n :: m :: rest, c, true =>
    match findEntry es n with
    | some sub => (copy2At sub (m :: rest) c true).map (fun sub2 => .dir (setEntry es n sub2))
    | none => none

/-- `shutil.copytree` of the source subtree `s` to path `p` of tree `t`
(only ever called when `p` does not exist in `t`): `os.makedirs` creates the
missing intermediate directories, then the whole subtree is copied.  Fails
(caught by the caller) when an intermediate segment is an existing file. -/
def copytreeAt : Node → List String → Node → Option Node
  | _, [], _ => none
  | .file _ _, _ :: _, _ => none
  | .dir es, [n], s => some (.dir (setEntry es n s))
  | .dir es, n :: m :: rest, s =>
    match findEntry es n with
    | some sub => (copytreeAt sub (m :: rest) s).map (fun sub2 => .dir (setEntry es n sub2))
    | none => (copytreeAt (.dir []) (m :: rest) s).map (fun sub2 => .dir (setEntry es n sub2))

/-- Content of the file at path `p`, if `p` is a file. -/
def contentAt (t : Node) (p : List String) : Option (List Nat) :=
  match getPath t p with
  | some (.file c _) => some c
  | _ => none

/-- Outcome of one `sync_folders` pass that did not crash: the resulting
replica tree, the number of attempted `shutil.copy2` calls, the number of
removal calls (`os.remove`/`shutil.rmtree`) of the deletion phases, whether
any per-item error was logged (`calculate_md5` failure or a failed copy), and
the absolute paths handed to mutating filesystem calls. -/
structure SyncResult where
  tree : Node
  copies : Nat
  deletes : Nat
  errored : Bool
  writes : List (List String)
deriving Repr, DecidableEq

/-- Like `SyncResult`, for the copy phase over a listing: the updated replica
listing instead of a whole tree. -/
structure ChildrenResult where
  items : List (String × Node)
  copies : Nat
  deletes : Nat
  errored : Bool
  writes : List (List String)
deriving Repr, DecidableEq

/-- Names of a listing `l` that do not occur in `names`, deduplicated:
Python's `set(l) - set(names)` iterated for the deletion phase. -/
def extraNames (l : List String) (names : List String) : List String :=
  (l.eraseDups).filter (fun n => ¬ names.contains n)

/-- The body of `sync_folders`' file case (lines 95–101): decide the copy
condition of line 95 (short-circuit: the digests are only computed when the
replica entry exists), then attempt `shutil.copy2`.  Returns the updated
replica listing, the number of attempted copies, whether the attempted copy
raised (caught at line 100), and the attempted write path. -/
def fileStep (dp : List String) (n : String) (c : List Nat) (rd : Bool)
    (destEs : List (String × Node)) :
    List (String × Node) × Nat × Bool × List (List String) :=
  let destEntry := findEntry destEs n
  let doCopy := destEntry.isNone ||
    !(calculate_md5 (some (.file c rd)) == calculate_md5 destEntry)
  if doCopy then
    match copy2Entry destEs n c, rd with
    | some es', true => (es', 1, false, [dp ++ [n]])
    | _, _ => (destEs, 1, true, [dp ++ [n]])
  else (destEs, 0, false, [])

/-- The error logged by the `calculate_md5` calls of line 95: one of the two
digests was computed (the replica entry exists) and came back `None`. -/
def fileMd5Err (c : List Nat) (rd : Bool) (destEs : List (String × Node))
    (n : String) : Bool :=
  (findEntry destEs n).isSome &&
    ((calculate_md5 (some (.file c rd))).isNone ||
     (calculate_md5 (findEntry destEs n)).isNone)

mutual

/-- `sync_folders(src, dest, ...)` of src/sync.py, called with the absolute
replica-side path `dp` of `dest` (the code threads it through
`os.path.join`).  `src` is the tree rooted at the source path; `dest` is the
node currently at the replica path (`none` when absent).  `Except.error`
models an exception no handler catches — `os.listdir` raised on a file, i.e.
`src` is a file, or `dest` exists as a file — which aborts the whole pass
(the recursive call at line 93 is not wrapped in any `try`). -/
def sync_folders (dp : List String) : Node → Option Node → Except Unit SyncResult
  | .file _ _, _ => .error ()
  | .dir _, some (.file _ _) => .error ()
  | .dir ses, dest => do
    let destEs : List (String × Node) := match dest with
      | some (.dir es) => es
      | _ => []
    let mkdirWrites : List (List String) := match dest with
      | none => [dp]
      | _ => []
    let cr ← syncChildren dp ses destEs
    let srcNames := ses.map Prod.fst
    let delNames := extraNames (destEs.map Prod.fst) srcNames
    pure
      { tree := .dir (cr.items.filter (fun q => srcNames.contains q.1))
        copies := cr.copies
        deletes := cr.deletes + delNames.length
        errored := cr.errored
        writes := mkdirWrites ++ cr.writes ++ delNames.map (fun n => dp ++ [n]) }

/-- The first loop of `sync_folders`: walk the source listing, recursing into
directories and copying files that are missing or compare unequal; threads
the evolving replica listing.  Returns the updated listing plus the
aggregated statistics. -/
def syncChildren (dp : List String) :
    List (String × Node) → List (String × Node) → Except Unit ChildrenResult
  | [], destEs => pure { items := destEs, copies := 0, deletes := 0, errored := false, writes := [] }
  | (n, t) :: rest, destEs =>
    match t with
    | .dir _ => do
      let sub ← sync_folders (dp ++ [n]) t (findEntry destEs n)
      let tl ← syncChildren dp rest (setEntry destEs n sub.tree)
      pure { items := tl.items, copies := sub.copies + tl.copies,
             deletes := sub.deletes + tl.deletes,
             errored := sub.errored || tl.errored,
             writes := sub.writes ++ tl.writes }
    | .file c rd => do
      let step := fileStep dp n c rd destEs
      let tl ← syncChildren dp rest step.1
      pure { items := tl.items, copies := step.2.1 + tl.copies, deletes := tl.deletes,
             errored := fileMd5Err c rd destEs n || step.2.2.1 || tl.errored,
             writes := step.2.2.2 ++ tl.writes }

end

/-- `handle_event(event, src, dest, ...)` of src/sync.py.  `dr` is the
replica root path; the event's path, re-rooted by
`os.path.join(dest, os.path.relpath(src_item_path, src))`, is the segment
list `p` under both roots.  Returns the new replica tree together with the
replica-side paths handed to mutating calls (the attempted target, whether or
not the call then failed; failures are caught by the surrounding `try`).
Event kinds other than `deleted`/`created`/`modified`/`moved` fall through
every branch and do nothing. -/
def handle_event (dr : List String) (src replica : Node) (ev : String × List String) :
    Node × List (List String) :=
  let (kind, p) := ev
  if kind = "deleted" then
    match getPath replica p with
    | some _ => (removePath replica p, [dr ++ p])
    | none => (replica, [])
  else if kind = "created" ∨ kind = "modified" ∨ kind = "moved" then
    match getPath src p with
    | some (.dir d) =>
      if (getPath replica p).isNone then
        match copytreeAt replica p (.dir d) with
        | some r' => (r', [dr ++ p])
        | none => (replica, [dr ++ p])
      else (replica, [])
    | some (.file c rd) =>
      if (getPath replica p).isNone ||
          !(calculate_md5 (some (.file c rd)) == calculate_md5 (getPath replica p)) then
        match copy2At replica p c rd with
        | some r' => (r', [dr ++ p])
        | none => (replica, [dr ++ p])
      else (replica, [])
    | none => (replica, [])
  else (replica, [])

/-- The replay loop of `sync_from_log`: apply the parsed events strictly in
log order. -/
def replayEvents (dr : List String) (src : Node) (replica : Node)
    (events : List (String × List String)) : Node :=
  events.foldl (fun r ev => (handle_event dr src r ev).1) replica

/-- `sync_from_log(src, dest, source_log_file, ...)`: replay every logged
event in order, then truncate the event log to empty. -/
def sync_from_log (dr : List String) (src replica : Node)
    (events : List (String × List String)) :
    Node × List (String × List String) :=
  (replayEvents dr src replica events, [])

/-- Which reconciliation strategy a scheduler tick ran. -/
inductive Strategy : Type where
  | fromLog : Strategy
  | fullTree : Strategy
deriving Repr, DecidableEq

/-- The state the main loop carries across ticks: the events accumulated in
the source log file (already decomposed by the producer and re-rooted, see
the header) and the replica tree. -/
structure SchedState where
  eventLog : List (String × List String)
  replica : Node
deriving Repr, DecidableEq

/-- One iteration of the `while True` loop of `main` (lines 219–227): if the
event log file is non-empty, run `sync_from_log` (which then truncates the
log); otherwise run `sync_folders` over the whole tree.  A crash of
`sync_folders` propagates (only `KeyboardInterrupt` is caught). -/
def tick (dr : List String) (src : Node) (st : SchedState) :
    Except Unit (SchedState × Strategy) :=
  if st.eventLog.isEmpty then
    (sync_folders dr src (some st.replica)).map
      (fun res => ({ eventLog := st.eventLog, replica := res.tree }, .fullTree))
  else
    let (r', log') := sync_from_log dr src st.replica st.eventLog
    .ok ({ eventLog := log', replica := r' }, .fromLog)

/-! ## The event-log text protocol

Log lines are modelled as `List Char`.  The producer is
`SyncEventHandler.log_event`; each line it emits is written by the logger
with a timestamp prefix (`'%(asctime)s - %(message)s'`).  The consumer is
`parse_event_log`, whose `re.search(r'Event type: (.+?): (.+)', line)` is
embedded faithfully: leftmost occurrence of the literal `"Event type: "`,
lazily shortest non-empty group up to a `": "` separator followed by a
non-empty remainder, falling back to later occurrences of the literal. -/

/-- A watchdog notification as seen by `SyncEventHandler.log_event`:
`event_type`, `src_path`, and (meaningful for `moved` only) `dest_path`. -/
structure RawEvent where
  event_type : List Char
  src_path : List Char
  dest_path : List Char
deriving Repr, DecidableEq

/-- Characters of a string literal. -/
def chars (s : String) : List Char := s.toList

/-- `log_event` of `SyncEventHandler`: the message lines appended to the
event log for one notification.  A `moved` notification is decomposed into a
`deleted` line for the old path immediately followed by a `moved` line
carrying the new path. -/
def log_event (e : RawEvent) : List (List Char) :=
  if e.event_type = chars "moved" then
    [chars "Event type: deleted: " ++ e.src_path,
     chars "Event type: " ++ e.event_type ++ chars ": " ++ e.dest_path]
  else
    [chars "Event type: " ++ e.event_type ++ chars ": " ++ e.src_path]

/-- Does `pat` occur at the very start of `l`? -/
def leadsWith : List Char → List Char → Bool
  | [], _ => true
  | _ :: _, [] => false
  | a :: as, b :: bs => a == b && leadsWith as bs

/-- The backtracking split for `(.+?): (.+)`: scanning left to right, take
the first position with a `": "` separator such that the group before it (the
reversed accumulator) and the remainder are both non-empty. -/
def splitKindPath : List Char → List Char → Option (List Char × List Char)
  | _, [] => none
  | acc, c :: rest =>
    if c = ':' ∧ rest.head? = some ' ' ∧ acc ≠ [] ∧ rest.tail ≠ [] then
      some (acc.reverse, rest.tail)
    else
      splitKindPath (c :: acc) rest

/-- `re.search(r'Event type: (.+?): (.+)', line)`: try every start position
left to right; at a position where the literal matches, try the lazy split of
the remainder, and on its failure continue with later positions. -/
def matchLine : List Char → Option (List Char × List Char)
  | [] => none
  | l@(_ :: rest) =>
    if leadsWith (chars "Event type: ") l then
      match splitKindPath [] (l.drop 12) with
      | some kp => some kp
      | none => matchLine rest
    else matchLine rest

/-- `parse_event_log(log_file, ...)`: scan every line, keeping the `(kind,
path)` capture groups of the lines the pattern matches (malformed lines are
skipped). -/
def parse_event_log (lines : List (List Char)) : List (List Char × List Char) :=
  lines.filterMap matchLine

/-- The `(kind, path)` pairs the producer logically wrote for one
notification (the round-trip target of the text protocol). -/
def writtenPairs (e : RawEvent) : List (List Char × List Char) :=
  if e.event_type = chars "moved" then
    [(chars "deleted", e.src_path), (e.event_type, e.dest_path)]
  else
    [(e.event_type, e.src_path)]

instance {ε α : Type} [DecidableEq ε] [DecidableEq α] : DecidableEq (Except ε α) := fun a b =>
  match a, b with
  | .ok x, .ok y =>
    if h : x = y then isTrue (by rw [h]) else isFalse (by intro hh; cases hh; exact h rfl)
  | .error x, .error y =>
    if h : x = y then isTrue (by rw [h]) else isFalse (by intro hh; cases hh; exact h rfl)
  | .ok _, .error _ => isFalse (by intro h; cases h)
  | .error _, .ok _ => isFalse (by intro h; cases h)

/-- The events the watch mechanism can hand to `log_event`: the four
dispatched handlers give a non-empty colon-free kind, and watchdog paths are
non-empty absolute paths. -/
def okEvent (e : RawEvent) : Prop :=
  e.event_type ≠ [] ∧ ':' ∉ e.event_type ∧ e.src_path ≠ [] ∧ e.dest_path ≠ []

/-- Did the computation avoid the uncaught-exception crash? -/
def exceptOk {α : Type} : Except Unit α → Bool
  | .ok _ => true
  | .error _ => false

/-! ## Predicates used by the theorems -/

/-- No duplicate names in a listing (`os.listdir` reports each entry once). -/
def nodupKeys : List String → Bool
  | [] => true
  | x :: xs => !(xs.contains x) && nodupKeys xs

mutual

/-- Well-formed tree: every directory listing, recursively, has no duplicate
names. -/
def wfNode : Node → Bool
  | .file _ _ => true
  | .dir es => nodupKeys (es.map Prod.fst) && wfEntries es

/-- `wfNode` for every node of a listing. -/
def wfEntries : List (String × Node) → Bool
  | [] => true
  | (_, t) :: rest => wfNode t && wfEntries rest

end

/-- Every name of `es'` also names an entry of `es`. -/
def keysCovered (es' es : List (String × Node)) : Bool :=
  (es'.map Prod.fst).all (fun n => (findEntry es n).isSome)

mutual

/-- The replica `r` is byte-for-byte identical to the source `s`: the same
set of entry names at every directory level and equal content fingerprints at
every file (readability flags, which are metadata, are not compared). -/
def mirrors : Node → Node → Bool
  | .file c _, .file c' _ => c == c'
  | .dir es, .dir es' => mirrorsFwd es es' && keysCovered es' es
  | _, _ => false

/-- Every entry of the source listing is mirrored in the replica listing. -/
def mirrorsFwd : List (String × Node) → List (String × Node) → Bool
  | [], _ => true
  | (n, t) :: rest, es' =>
    (match findEntry es' n with
     | some t' => mirrors t t'
     | none => false) && mirrorsFwd rest es'

end

mutual

/-- Fully synchronized: like `mirrors`, and additionally every file on both
sides is readable — the state a failure-free `sync_folders` pass leaves
behind, strong enough to make the next pass a no-op. -/
def fsync : Node → Node → Bool
  | .file c rd, .file c' rd' => rd && rd' && c == c'
  | .dir es, .dir es' => fsyncFwd es es' && keysCovered es' es
  | _, _ => false

/-- Every entry of the source listing is fully synchronized in the replica
listing. -/
def fsyncFwd : List (String × Node) → List (String × Node) → Bool
  | [], _ => true
  | (n, t) :: rest, es' =>
    (match findEntry es' n with
     | some t' => fsync t t'
     | none => false) && fsyncFwd rest es'

end

mutual

/-- Shape compatibility of a source tree with the replica node at the same
path: the source is a directory, the replica node (when present) is not a
file, and recursively so wherever the source has a subdirectory.  Exactly the
configurations in which no `os.listdir` call of `sync_folders` can raise. -/
def compatN : Node → Option Node → Bool
  | .file _ _, _ => false
  | .dir _, some (.file _ _) => false
  | .dir ses, dest =>
    compatChildren ses (match dest with
      | some (.dir es) => es
      | _ => [])

/-- `compatN` over a source listing against the replica listing. -/
def compatChildren : List (String × Node) → List (String × Node) → Bool
  | [], _ => true
  | (n, t) :: rest, destEs =>
    (match t with
     | .dir _ => compatN t (findEntry destEs n)
     | .file _ _ => true) && compatChildren rest destEs

end

/-- Modelled from the spec's words (§4.1), for comparison with the code's
line-95 test: two paths are "equal in content" iff both fingerprint
successfully and the digests are byte-equal; if either side is missing or
`NotComputable`, they are treated as unequal. -/
def specEqualInContent (a b : Option Node) : Bool :=
  match calculate_md5 a, calculate_md5 b with
  | some x, some y => x == y
  | _, _ => false

/-! ## Helper lemmas -/

theorem eraseDups_single (n : String) : [n].eraseDups = [n] := rfl

theorem extraNames_self_single (n : String) : extraNames [n] [n] = [] := by
  simp [extraNames, eraseDups_single]

theorem findEntry_setEntry_self : ∀ (es : List (String × Node)) (n : String) (t : Node),
    findEntry (setEntry es n t) n = some t
  | [], n, t => by simp [setEntry, findEntry]
  | (m, u) :: rest, n, t => by
    by_cases h : m = n <;>
      simp [setEntry, findEntry, h, findEntry_setEntry_self rest n t]

theorem findEntry_setEntry_ne (es : List (String × Node)) (n m : String) (t : Node)
    (h : ¬ m = n) : findEntry (setEntry es n t) m = findEntry es m := by
  induction es with
  | nil =>
    have h' : ¬ n = m := fun hh => h hh.symm
    simp [setEntry, findEntry, h']
  | cons hd rest ih =>
    obtain ⟨a, u⟩ := hd
    by_cases ha : a = n
    · subst ha
      have h' : ¬ a = m := fun hh => h hh.symm
      simp [setEntry, findEntry, h']
    · simp [setEntry, findEntry, ha, ih]

theorem findEntry_updateEntry_self (es : List (String × Node)) (n : String)
    (f : Node → Node) : findEntry (updateEntry es n f) n = (findEntry es n).map f := by
  induction es with
  | nil => simp [updateEntry, findEntry]
  | cons hd rest ih =>
    obtain ⟨a, u⟩ := hd
    by_cases ha : a = n <;> simp [updateEntry, findEntry, ha, ih]

theorem findEntry_updateEntry_ne (es : List (String × Node)) (n m : String)
    (f : Node → Node) (h : ¬ m = n) :
    findEntry (updateEntry es n f) m = findEntry es m := by
  induction es with
  | nil => simp [updateEntry]
  | cons hd rest ih =>
    obtain ⟨a, u⟩ := hd
    by_cases ha : a = n
    · subst ha
      have h' : ¬ a = m := fun hh => h hh.symm
      simp [updateEntry, findEntry, h']
    · simp [updateEntry, findEntry, ha, ih]

theorem findEntry_filter_out (es : List (String × Node)) (n : String) :
    findEntry (es.filter (fun q => ¬ (q.1 = n))) n = none := by
  induction es with
  | nil => simp [findEntry]
  | cons hd rest ih =>
    obtain ⟨a, u⟩ := hd
    simp only [decide_not] at ih
    by_cases ha : a = n <;> simp [List.filter, ha, findEntry, decide_not, ih]

theorem getPath_copytreeAt : ∀ (p : List String) (t t' s : Node),
    copytreeAt t p s = some t' → getPath t' p = some s
  | [], t, t', s => by simp [copytreeAt]
  | [n], t, t', s => by
    cases t with
    | file c r => simp [copytreeAt]
    | dir es =>
      intro h
      simp [copytreeAt] at h
      subst h
      simp [getPath, findEntry_setEntry_self]
  | n :: m :: rest, t, t', s => by
    cases t with
    | file c r => simp [copytreeAt]
    | dir es =>
      intro h
      cases hfe : findEntry es n with
      | some sub =>
        rw [copytreeAt, hfe] at h
        rcases Option.map_eq_some'.mp h with ⟨sub2, hsub2, ht'⟩
        subst ht'
        simp [getPath, findEntry_setEntry_self, getPath_copytreeAt (m :: rest) sub sub2 s hsub2]
      | none =>
        rw [copytreeAt, hfe] at h
        rcases Option.map_eq_some'.mp h with ⟨sub2, hsub2, ht'⟩
        subst ht'
        simp [getPath, findEntry_setEntry_self, getPath_copytreeAt (m :: rest) _ sub2 s hsub2]

/-! ## Claim C2 -/

/-- Claim C2 is false as stated: when both sides' fingerprints are
`NotComputable` (both `calculate_md5` calls return `None`), line 95 compares
`None != None`, which is `False`, so the two files are treated as *equal* and
the copy is skipped — here the replica keeps content `[2]` although the
source has `[1]`, with no copy performed (`copies = 0`), contradicting
"whenever either side's fingerprint is NotComputable … the copy is
performed". -/
theorem c2_counterexample :
    calculate_md5 (some (.file [1] false)) = none ∧
    calculate_md5 (some (.file [2] false)) = none ∧
    specEqualInContent (some (.file [1] false)) (some (.file [2] false)) = false ∧
    sync_folders [] (.dir [("a", .file [1] false)]) (some (.dir [("a", .file [2] false)]))
      = .ok { tree := .dir [("a", .file [2] false)], copies := 0, deletes := 0,
              errored := true, writes := [] } := by
  decide

/-- Claim C2 (amended): in the file comparison of the reconciliation, a copy
is attempted iff the replica entry is missing or the two `calculate_md5`
results differ *as optional values*: both digests present and byte-equal
means no copy, and both sides `NotComputable` (`None`) also compares equal so
the copy is skipped; when exactly one side is `NotComputable`, or the replica
entry is missing, the sides compare unequal and the copy is performed. -/
theorem c2_copy_condition (n : String) (c : List Nat) (rd : Bool) (e : Option Node) :
    (sync_folders [] (.dir [(n, .file c rd)])
        (some (.dir (match e with | some u => [(n, u)] | none => [])))).map SyncResult.copies
      = .ok (if e.isNone || !(calculate_md5 (some (.file c rd)) == calculate_md5 e)
             then 1 else 0) := by
  cases e with
  | none =>
    cases rd <;>
      simp [sync_folders, syncChildren, fileStep, fileMd5Err, findEntry, copy2Entry,
        setEntry, extraNames, calculate_md5, Except.map, pure, Except.pure, bind,
        Except.bind]
  | some u =>
    have hfe : findEntry [(n, u)] n = some u := by simp [findEntry]
    cases u with
    | file c' rd' =>
      cases rd <;> cases rd' <;>
        (by_cases h : c = c' <;>
          simp [sync_folders, syncChildren, fileStep, fileMd5Err, hfe, copy2Entry,
            setEntry, h, calculate_md5, Except.map, pure, Except.pure, bind,
            Except.bind, extraNames_self_single])
    | dir d =>
      rcases hce : copy2Entry [(n, .dir d)] n c with _ | es' <;> cases rd <;>
        simp [sync_folders, syncChildren, fileStep, fileMd5Err, hfe, hce,
          calculate_md5, Except.map, pure, Except.pure, bind, Except.bind,
          extraNames_self_single]

/-! ## Claim C6 -/

/-- Claim C6: on every scheduler tick exactly one reconciliation strategy
runs — with a non-empty event log the tick replays the logged events with
`sync_from_log` (strategy `fromLog`) and leaves the log cleared to empty;
with an empty log it runs the full `sync_folders` pass (strategy `fullTree`)
and the log stays empty. -/
theorem c6_tick_strategy (dr : List String) (src : Node) (st : SchedState) :
    (st.eventLog ≠ [] →
      tick dr src st =
        .ok ({ eventLog := [], replica := replayEvents dr src st.replica st.eventLog },
          .fromLog)) ∧
    (st.eventLog = [] →
      tick dr src st =
        (sync_folders dr src (some st.replica)).map
          (fun res => ({ eventLog := [], replica := res.tree }, .fullTree))) := by
  constructor
  · intro h
    simp [tick, sync_from_log, List.isEmpty_iff, h]
  · intro h
    simp [tick, List.isEmpty_iff, h]

theorem c6_tick_strategy_witness :
    tick [] (.dir []) { eventLog := [("deleted", ["a"])], replica := .dir [] } =
      .ok ({ eventLog := [], replica := .dir [] }, .fromLog) ∧
    tick [] (.dir [("a", .file [1] true)]) { eventLog := [], replica := .dir [] } =
      .ok ({ eventLog := [],
             replica := .dir [("a", .file [1] true)] }, .fullTree) := by
  constructor
  · exact (c6_tick_strategy [] (.dir []) _).1 (by decide)
  · exact (c6_tick_strategy [] (.dir [("a", .file [1] true)]) _).2 rfl

/-! ## Claim C3 -/

/-- Claim C3 is false as stated: replaying a `created` event whose source
path is now a directory uses `shutil.copytree` (line 157), which copies the
directory's entire contents — here the replica receives `d` *including* the
file `f` inside it, contradicting "does not recurse into or copy the
directory's contents". -/
theorem c3_counterexample :
    handle_event [] (.dir [("d", .dir [("f", .file [7] true)])]) (.dir []) ("created", ["d"])
      = (.dir [("d", .dir [("f", .file [7] true)])], [["d"]]) ∧
    getPath (.dir [("d", .dir [("f", .file [7] true)])]) ["d", "f"]
      = some (.file [7] true) := by
  decide

/-- Claim C3 (amended): for a replayed `created` or `modified` event whose
source path is currently a directory, `handle_event` acts only when the
replica lacks the re-rooted path — when the replica already has any node
there it does nothing — and when it acts it copies the *whole* source
subtree to the replica path with `shutil.copytree` (contents included), not
just the bare directory node. -/
theorem c3_created_dir (dr : List String) (src replica : Node) (k : String)
    (p : List String) (d : List (String × Node))
    (hk : k = "created" ∨ k = "modified")
    (hs : getPath src p = some (.dir d)) :
    (∀ t, getPath replica p = some t → handle_event dr src replica (k, p) = (replica, [])) ∧
    (getPath replica p = none →
      ∀ r', copytreeAt replica p (.dir d) = some r' →
        handle_event dr src replica (k, p) = (r', [dr ++ p]) ∧
        getPath r' p = some (.dir d)) := by
  constructor
  · intro t ht
    rcases hk with h | h <;> subst h <;>
      simp [handle_event, hs, ht]
  · intro hnone r' hct
    rcases hk with h | h <;> subst h <;>
      simp [handle_event, hs, hnone, hct, getPath_copytreeAt _ _ _ _ hct]

theorem c3_created_dir_witness :
    handle_event [] (.dir [("d", .dir [])]) (.dir []) ("created", ["d"])
      = (.dir [("d", .dir [])], [["d"]]) ∧
    getPath (.dir [("d", .dir [])]) ["d"] = some (.dir []) :=
  (c3_created_dir [] (.dir [("d", .dir [])]) (.dir []) "created" ["d"] []
    (Or.inl rfl) (by decide)).2 (by decide) (.dir [("d", .dir [])]) (by decide)

/-! ## Claim C4 -/

theorem getPath_removePath_self : ∀ (t : Node) (p : List String), p ≠ [] →
    getPath (removePath t p) p = none
  | _, [], h => absurd rfl h
  | .file _ _, _ :: _, _ => by simp [removePath, getPath]
  | .dir es, [n], _ => by
    have h := findEntry_filter_out es n
    simp only [decide_not] at h
    simp [removePath, getPath, h]
  | .dir es, n :: m :: rest, _ => by
    simp only [removePath, getPath, findEntry_updateEntry_self]
    cases hfe : findEntry es n with
    | none => simp
    | some u => simp [getPath_removePath_self u (m :: rest) (by simp)]

theorem handle_deleted_absent (dr : List String) (src r : Node) (p : List String)
    (hp : p ≠ []) : getPath ((handle_event dr src r ("deleted", p)).1) p = none := by
  cases hg : getPath r p with
  | some t =>
    simp [handle_event, hg]
    exact getPath_removePath_self r p hp
  | none => simp [handle_event, hg]

/-- Claim C4: replaying `[Created(a), Modified(a), Deleted(a)]` through
`sync_from_log` leaves `a` absent from the replica — the same net effect on
`a` as replaying the deletion alone — and events are applied strictly in log
order (`replayEvents` is a left fold, so replaying a concatenation equals
replaying the first segment and then the second). -/
theorem c4_create_modify_delete (dr : List String) (src r : Node) (p : List String)
    (hp : p ≠ []) :
    getPath ((sync_from_log dr src r
        [("created", p), ("modified", p), ("deleted", p)]).1) p = none ∧
    getPath ((handle_event dr src r ("deleted", p)).1) p = none ∧
    (∀ evs₁ evs₂ : List (String × List String),
      replayEvents dr src r (evs₁ ++ evs₂)
        = replayEvents dr src (replayEvents dr src r evs₁) evs₂) := by
  refine ⟨?_, handle_deleted_absent dr src r p hp, ?_⟩
  · simp only [sync_from_log, replayEvents, List.foldl]
    exact handle_deleted_absent dr src _ p hp
  · intro evs₁ evs₂
    simp [replayEvents, List.foldl_append]

theorem c4_create_modify_delete_witness :
    getPath ((sync_from_log [] (.dir [("a", .file [2] true)]) (.dir [])
        [("created", ["a"]), ("modified", ["a"]), ("deleted", ["a"])]).1) ["a"] = none :=
  (c4_create_modify_delete [] (.dir [("a", .file [2] true)]) (.dir []) ["a"]
    (by decide)).1

/-! ## Claim C7 -/

theorem findEntry_copy2Entry_ne (es es' : List (String × Node)) (n m : String)
    (c : List Nat) (h : copy2Entry es n c = some es') (hm : ¬ m = n) :
    findEntry es' m = findEntry es m := by
  unfold copy2Entry at h
  split at h
  · cases h
    exact findEntry_setEntry_ne es n m _ hm
  · cases h
    exact findEntry_setEntry_ne es n m _ hm
  · split at h
    · cases h
    · cases h
      exact findEntry_setEntry_ne es n m _ hm

theorem fileStep_findEntry_ne (dp : List String) (n : String) (c : List Nat) (rd : Bool)
    (destEs : List (String × Node)) (m : String) (hm : ¬ m = n) :
    findEntry (fileStep dp n c rd destEs).1 m = findEntry destEs m := by
  unfold fileStep
  split
  · rename_i es' heq
    dsimp only
    split
    · exact findEntry_copy2Entry_ne destEs es' n m c heq hm
    · rfl
  · dsimp only
    split <;> rfl

theorem fileStep_writes (dp : List String) (n : String) (c : List Nat) (rd : Bool)
    (destEs : List (String × Node)) :
    (fileStep dp n c rd destEs).2.2.2 = [] ∨
    (fileStep dp n c rd destEs).2.2.2 = [dp ++ [n]] := by
  unfold fileStep
  split <;> dsimp only <;> split <;> simp

mutual

theorem sync_folders_isOk : ∀ (dp : List String) (src : Node) (dest : Option Node),
    wfNode src = true → compatN src dest = true →
    exceptOk (sync_folders dp src dest) = true
  | _, .file _ _, _ => by simp [compatN]
  | dp, .dir ses, none => by
    intro hwf hc
    simp only [wfNode, Bool.and_eq_true] at hwf
    simp only [compatN] at hc
    rcases h : syncChildren dp ses [] with e | cr
    · have := syncChildren_isOk dp ses [] [] hwf.1 hwf.2 hc (fun _ _ => rfl)
      rw [h] at this
      cases this
    · simp [sync_folders, h, exceptOk, bind, Except.bind, pure, Except.pure]
  | dp, .dir ses, some (.file _ _) => by simp [compatN]
  | dp, .dir ses, some (.dir es) => by
    intro hwf hc
    simp only [wfNode, Bool.and_eq_true] at hwf
    simp only [compatN] at hc
    rcases h : syncChildren dp ses es with e | cr
    · have := syncChildren_isOk dp ses es es hwf.1 hwf.2 hc (fun _ _ => rfl)
      rw [h] at this
      cases this
    · simp [sync_folders, h, exceptOk, bind, Except.bind, pure, Except.pure]

theorem syncChildren_isOk : ∀ (dp : List String) (ses destEs destEs0 : List (String × Node)),
    nodupKeys (ses.map Prod.fst) = true → wfEntries ses = true →
    compatChildren ses destEs0 = true →
    (∀ n, n ∈ ses.map Prod.fst → findEntry destEs n = findEntry destEs0 n) →
    exceptOk (syncChildren dp ses destEs) = true
  | _, [], destEs, _ => by
    intro _ _ _ _
    simp [syncChildren, exceptOk, pure, Except.pure]
  | dp, (n, t) :: rest, destEs, destEs0 => by
    intro hnd hwf hc hagree
    simp only [List.map, nodupKeys, Bool.and_eq_true, Bool.not_eq_true'] at hnd
    simp only [wfEntries, Bool.and_eq_true] at hwf
    simp only [compatChildren, Bool.and_eq_true] at hc
    have hrest : ∀ m, m ∈ rest.map Prod.fst → ¬ m = n := by
      intro m hm heq
      rw [heq] at hm
      have h1 : (rest.map Prod.fst).contains n = true := List.elem_iff.mpr hm
      rw [hnd.1] at h1
      cases h1
    cases t with
    | dir d =>
      have hdest : findEntry destEs n = findEntry destEs0 n :=
        hagree n (by simp)
      have hsub := sync_folders_isOk (dp ++ [n]) (.dir d) (findEntry destEs n)
        hwf.1 (by rw [hdest]; exact hc.1)
      rcases hs : sync_folders (dp ++ [n]) (.dir d) (findEntry destEs n) with e | sub
      · rw [hs] at hsub; cases hsub
      · have htl := syncChildren_isOk dp rest (setEntry destEs n sub.tree) destEs0
          hnd.2 hwf.2 hc.2
          (fun m hm => by
            rw [findEntry_setEntry_ne destEs n m sub.tree (hrest m hm)]
            exact hagree m (by simp [hm]))
        rcases ht : syncChildren dp rest (setEntry destEs n sub.tree) with e | tl
        · rw [ht] at htl; cases htl
        · simp [syncChildren, hs, ht, exceptOk, bind, Except.bind, pure, Except.pure]
    | file c rd =>
      have hag2 : ∀ m, m ∈ rest.map Prod.fst →
          findEntry (fileStep dp n c rd destEs).1 m = findEntry destEs0 m := by
        intro m hm
        rw [fileStep_findEntry_ne dp n c rd destEs m (hrest m hm)]
        exact hagree m (by simp [hm])
      rcases ht : syncChildren dp rest (fileStep dp n c rd destEs).1 with e | tl
      · have := syncChildren_isOk dp rest _ destEs0 hnd.2 hwf.2 hc.2 hag2
        rw [ht] at this
        cases this
      · simp [syncChildren, ht, exceptOk, bind, Except.bind, pure, Except.pure]

end

/-- Claim C7 is false as stated: per-item *copy* failures are indeed caught,
but an `os.listdir` failure in the reconciliation path — here the replica has
a file `d` where the source has a directory `d`, so the recursive call's
`os.listdir(dest)` raises `NotADirectoryError` — is caught nowhere (the
recursion at line 93 is outside every `try`, and `main` catches only
`KeyboardInterrupt`), so the pass aborts and the process crashes; the same
input crashes a whole scheduler tick. -/
theorem c7_counterexample :
    sync_folders [] (.dir [("d", .dir [])]) (some (.dir [("d", .file [] true)]))
      = .error () ∧
    tick [] (.dir [("d", .dir [])])
      { eventLog := [], replica := .dir [("d", .file [] true)] } = .error () := by
  decide

/-- Claim C7 (amended): per-item failures of the copy step (unreadable
sources, `calculate_md5` errors, the copy-into-directory corner) are caught
and recorded, and the traversal continues — whenever the source is a
directory and no path has a directory in the source against a file in the
replica (`compatN`), the pass runs to completion, whatever the files'
readability; but a shape clash makes `os.listdir` raise, which aborts the
remainder of the pass and crashes the process (see the counterexample). -/
theorem c7_no_crash (dp : List String) (src : Node) (dest : Option Node)
    (hwf : wfNode src = true) (hc : compatN src dest = true) :
    exceptOk (sync_folders dp src dest) = true :=
  sync_folders_isOk dp src dest hwf hc

theorem c7_no_crash_witness :
    exceptOk (sync_folders [] (.dir [("u", .file [1] false), ("v", .file [2] true)])
      (some (.dir [("w", .file [3] false)]))) = true :=
  c7_no_crash [] (.dir [("u", .file [1] false), ("v", .file [2] true)])
    (some (.dir [("w", .file [3] false)])) (by decide) (by decide)

/-! ## Claim C10 -/

/-- Two root paths neither of which lies below the other cannot both lie
above the same path: a path below `dr` is never below `srcRoot`. -/
theorem roots_disjoint (srcRoot dr w : List String)
    (h1 : ¬ ∃ t, srcRoot ++ t = dr) (h2 : ¬ ∃ t, dr ++ t = srcRoot)
    (hw : ∃ t, dr ++ t = w) : ¬ ∃ t, srcRoot ++ t = w := by
  rcases hw with ⟨t, rfl⟩
  rintro ⟨u, hu⟩
  by_cases hl : srcRoot.length ≤ dr.length
  · apply h1
    have hs : List.take srcRoot.length dr = srcRoot := by
      have h3 := congrArg (fun l => List.take srcRoot.length l) hu
      simp only [List.take_left, List.take_append_of_le_length hl] at h3
      exact h3.symm
    exact ⟨dr.drop srcRoot.length,
      (congrArg (fun x => x ++ dr.drop srcRoot.length) hs.symm).trans
        (List.take_append_drop _ dr)⟩
  · apply h2
    have hl' : dr.length ≤ srcRoot.length := le_of_lt (lt_of_not_le hl)
    have hs : List.take dr.length srcRoot = dr := by
      have h3 := congrArg (fun l => List.take dr.length l) hu
      simp only [List.take_left, List.take_append_of_le_length hl'] at h3
      exact h3
    exact ⟨srcRoot.drop dr.length,
      (congrArg (fun x => x ++ srcRoot.drop dr.length) hs.symm).trans
        (List.take_append_drop _ srcRoot)⟩

/-- Every replica-side path `handle_event` hands to a mutating call is the
re-rooted event path `dr ++ p` itself. -/
theorem handle_event_writes (dr : List String) (src r : Node) (ev : String × List String) :
    ∀ w ∈ (handle_event dr src r ev).2, w = dr ++ ev.2 := by
  obtain ⟨kind, p⟩ := ev
  intro w hw
  by_cases h1 : kind = "deleted"
  · cases hg : getPath r p with
    | some t => simp [handle_event, h1, hg] at hw; simp [hw]
    | none => simp [handle_event, h1, hg] at hw
  · by_cases h2 : kind = "created" ∨ kind = "modified" ∨ kind = "moved"
    · cases hs : getPath src p with
      | none => simp [handle_event, h1, h2, hs] at hw
      | some u =>
        cases u with
        | dir d =>
          by_cases hrep : (getPath r p).isNone
          · cases hct : copytreeAt r p (.dir d) with
            | some r' => simp [handle_event, h1, h2, hs, hrep, hct] at hw; simp [hw]
            | none => simp [handle_event, h1, h2, hs, hrep, hct] at hw; simp [hw]
          · simp [handle_event, h1, h2, hs, hrep] at hw
        | file c rd =>
          by_cases hcp : ((getPath r p).isNone ||
              !(calculate_md5 (some (.file c rd)) == calculate_md5 (getPath r p))) = true
          · cases hca : copy2At r p c rd with
            | some r' => simp [handle_event, h1, h2, hs, hcp, hca] at hw; simp [hw]
            | none => simp [handle_event, h1, h2, hs, hcp, hca] at hw; simp [hw]
          · simp [handle_event, h1, h2, hs, hcp] at hw
    · simp [handle_event, h1, h2] at hw

mutual

theorem sync_folders_writes : ∀ (dp : List String) (src : Node) (dest : Option Node)
    (res : SyncResult), sync_folders dp src dest = .ok res →
    ∀ w ∈ res.writes, ∃ t, dp ++ t = w
  | _, .file _ _, _, res => by intro h; cases h
  | dp, .dir ses, none, res => by
    intro h w hw
    rcases hc : syncChildren dp ses [] with e | cr
    · rw [sync_folders, hc] at h; cases h
    · rw [sync_folders, hc] at h
      simp only [bind, Except.bind, pure, Except.pure] at h
      cases h
      simp only [SyncResult.writes] at hw
      rcases List.mem_append.mp hw with hw' | hw'
      · rcases List.mem_append.mp hw' with hw'' | hw''
        · simp at hw''
          exact ⟨[], by simp [hw'']⟩
        · exact syncChildren_writes dp ses [] cr hc w hw''
      · rcases List.mem_map.mp hw' with ⟨n, _, rfl⟩
        exact ⟨[n], rfl⟩
  | dp, .dir ses, some (.file _ _), res => by intro h; cases h
  | dp, .dir ses, some (.dir es), res => by
    intro h w hw
    rcases hc : syncChildren dp ses es with e | cr
    · rw [sync_folders, hc] at h; cases h
    · rw [sync_folders, hc] at h
      simp only [bind, Except.bind, pure, Except.pure] at h
      cases h
      simp only [SyncResult.writes] at hw
      rcases List.mem_append.mp hw with hw' | hw'
      · rcases List.mem_append.mp hw' with hw'' | hw''
        · simp at hw''
        · exact syncChildren_writes dp ses es cr hc w hw''
      · rcases List.mem_map.mp hw' with ⟨n, _, rfl⟩
        exact ⟨[n], rfl⟩

theorem syncChildren_writes : ∀ (dp : List String) (ses destEs : List (String × Node))
    (cr : ChildrenResult), syncChildren dp ses destEs = .ok cr →
    ∀ w ∈ cr.writes, ∃ t, dp ++ t = w
  | dp, [], destEs, cr => by
    intro h w hw
    rw [syncChildren] at h
    simp only [pure, Except.pure] at h
    cases h
    simp at hw
  | dp, (n, t) :: rest, destEs, cr => by
    intro h w hw
    cases t with
    | dir d =>
      rcases hs : sync_folders (dp ++ [n]) (.dir d) (findEntry destEs n) with e | sub
      · rw [syncChildren, hs] at h
        simp only [bind, Except.bind] at h
        cases h
      · rw [syncChildren, hs] at h
        simp only [bind, Except.bind] at h
        rcases ht : syncChildren dp rest (setEntry destEs n sub.tree) with e | tl
        · rw [ht] at h
          simp only [bind, Except.bind] at h
          cases h
        · rw [ht] at h
          simp only [bind, Except.bind, pure, Except.pure] at h
          cases h
          rcases List.mem_append.mp hw with hw' | hw'
          · rcases sync_folders_writes (dp ++ [n]) (.dir d) (findEntry destEs n) sub hs w hw'
              with ⟨u, hu⟩
            exact ⟨[n] ++ u, by simpa using hu⟩
          · exact syncChildren_writes dp rest _ tl ht w hw'
    | file c rd =>
      simp only [syncChildren] at h
      rcases ht : syncChildren dp rest (fileStep dp n c rd destEs).1 with e | tl
      · rw [ht] at h
        simp only [bind, Except.bind] at h
        cases h
      · rw [ht] at h
        simp only [bind, Except.bind, pure, Except.pure] at h
        cases h
        rcases List.mem_append.mp hw with hw' | hw'
        · rcases fileStep_writes dp n c rd destEs with hfw | hfw
          · rw [hfw] at hw'
            cases hw'
          · rw [hfw] at hw'
            simp only [List.mem_singleton] at hw'
            exact ⟨[n], hw'.symm⟩
        · exact syncChildren_writes dp rest _ tl ht w hw'

end

/-- Claim C10: every filesystem path a tree pass or an event replay hands to
a mutating call lies below the replica root `dr` (writes are recorded by the
embedding as the paths passed to `os.makedirs`, `shutil.copy2`,
`shutil.copytree`, `os.remove` and `shutil.rmtree`); consequently, whenever
neither root lies below the other, no mutated path lies below the source
root.  (The replay's writes lie below `dr` because every event path is
re-rooted under the replica root by `os.path.join(dest, relpath(p, src))`;
event paths outside the watched tree do not occur.) -/
theorem c10_mutations_under_replica (dr srcRoot : List String) (src : Node)
    (dest : Option Node) (r : Node) (ev : String × List String) (res : SyncResult)
    (h : sync_folders dr src dest = .ok res) :
    (∀ w ∈ res.writes, ∃ t, dr ++ t = w) ∧
    (∀ w ∈ (handle_event dr src r ev).2, ∃ t, dr ++ t = w) ∧
    ((¬ ∃ t, srcRoot ++ t = dr) → (¬ ∃ t, dr ++ t = srcRoot) →
      (∀ w ∈ res.writes, ¬ ∃ t, srcRoot ++ t = w) ∧
      (∀ w ∈ (handle_event dr src r ev).2, ¬ ∃ t, srcRoot ++ t = w)) := by
  refine ⟨sync_folders_writes dr src dest res h, ?_, ?_⟩
  · intro w hw
    exact ⟨ev.2, (handle_event_writes dr src r ev w hw).symm⟩
  · intro h1 h2
    constructor
    · intro w hw
      exact roots_disjoint srcRoot dr w h1 h2 (sync_folders_writes dr src dest res h w hw)
    · intro w hw
      exact roots_disjoint srcRoot dr w h1 h2
        ⟨ev.2, (handle_event_writes dr src r ev w hw).symm⟩

theorem c10_mutations_under_replica_witness :
    ∃ t, ["rep"] ++ t = ["rep", "a"] :=
  (c10_mutations_under_replica ["rep"] ["srcdir"] (.dir [("a", .file [1] true)]) none
    (.dir []) ("deleted", ["q"])
    { tree := .dir [("a", .file [1] true)], copies := 1, deletes := 0,
      errored := false, writes := [["rep"], ["rep", "a"]] } (by decide)).1
    ["rep", "a"] (by decide)

/-! ## Claim C5 -/

theorem getPath_append : ∀ (p q : List String) (t : Node),
    getPath t (p ++ q) = (getPath t p).bind (fun u => getPath u q)
  | [], q, t => by simp [getPath]
  | n :: rest, q, .file c r => by simp [getPath]
  | n :: rest, q, .dir es => by
    cases hfe : findEntry es n with
    | none => simp [getPath, hfe]
    | some u => simp [getPath, hfe, getPath_append rest q u]

/-- Unfolding of `copy2At` at a cons path with a non-empty tail. -/
theorem copy2At_cons (es : List (String × Node)) (n : String) (pRest : List String)
    (c : List Nat) (h : pRest ≠ []) :
    copy2At (.dir es) (n :: pRest) c true =
      match findEntry es n with
      | some sub => (copy2At sub pRest c true).map (fun sub2 => .dir (setEntry es n sub2))
      | none => none := by
  cases pRest with
  | nil => exact absurd rfl h
  | cons m rest => rfl

/-- `shutil.copy2` succeeds when the target's parent directory exists and the
target entry is not an existing directory, and afterwards the target holds
the copied (readable) file. -/
theorem copy2At_ok : ∀ (pbp : List String) (t : Node) (q : List (String × Node))
    (bn : String) (c : List Nat),
    getPath t pbp = some (.dir q) → (∀ d, findEntry q bn ≠ some (.dir d)) →
    ∃ t', copy2At t (pbp ++ [bn]) c true = some t' ∧
      getPath t' (pbp ++ [bn]) = some (.file c true)
  | [], t, q, bn, c => by
    intro hg hnd
    simp only [getPath] at hg
    cases hg
    refine ⟨.dir (setEntry q bn (.file c true)), ?_, ?_⟩
    · simp only [List.nil_append, copy2At, copy2Entry]
      cases hfe : findEntry q bn with
      | none => simp
      | some u =>
        cases u with
        | file cc rr => simp
        | dir d => exact absurd hfe (hnd d)
    · simp [getPath, findEntry_setEntry_self]
  | n :: pbt, t, q, bn, c => by
    intro hg hnd
    cases t with
    | file cc rr => simp [getPath] at hg
    | dir es =>
      cases hfe : findEntry es n with
      | none => simp [getPath, hfe] at hg
      | some sub =>
        simp only [getPath, hfe] at hg
        rcases copy2At_ok pbt sub q bn c hg hnd with ⟨sub2, hs2, hgs⟩
        refine ⟨.dir (setEntry es n sub2), ?_, ?_⟩
        · rw [List.cons_append, copy2At_cons es n (pbt ++ [bn]) c (by simp)]
          simp [hfe, hs2]
        · rw [List.cons_append]
          simp [getPath, findEntry_setEntry_self, hgs]

/-- Frame property of a successful `shutil.copy2` to path `pb`: the node at
any other path that is neither an ancestor nor a descendant of `pb` is
unchanged. -/
theorem copy2At_frame : ∀ (pb : List String) (t t' : Node) (c : List Nat),
    copy2At t pb c true = some t' → ∀ pa, pa ≠ [] →
    (∀ ext, pb ++ ext ≠ pa) → (∀ ext, pa ++ ext ≠ pb) →
    getPath t' pa = getPath t pa
  | [], t, t', c => by intro h; simp [copy2At] at h
  | [n], .file _ _, t', c => by intro h; simp [copy2At] at h
  | [n], .dir es, t', c => by
    intro h pa hpa hnotBelow hnotAbove
    simp only [copy2At] at h
    rcases Option.map_eq_some'.mp h with ⟨es', hce, rfl⟩
    cases pa with
    | nil => exact absurd rfl hpa
    | cons k pat =>
      by_cases hk : k = n
      · subst hk
        cases pat with
        | nil => exact absurd (by simp) (hnotBelow [])
        | cons e pat2 => exact absurd rfl (hnotBelow (e :: pat2))
      · simp only [getPath, findEntry_copy2Entry_ne es es' n k c hce hk]
  | n :: m :: rest, .file _ _, t', c => by intro h; simp [copy2At] at h
  | n :: m :: rest, .dir es, t', c => by
    intro h pa hpa hnotBelow hnotAbove
    cases hfe : findEntry es n with
    | none => rw [copy2At, hfe] at h; cases h
    | some sub =>
      rw [copy2At, hfe] at h
      simp only [] at h
      rcases Option.map_eq_some'.mp h with ⟨sub2, hs2, rfl⟩
      cases pa with
      | nil => exact absurd rfl hpa
      | cons k pat =>
        by_cases hk : k = n
        · subst hk
          cases pat with
          | nil => exact absurd rfl (hnotAbove (m :: rest))
          | cons e pat2 =>
            have hbelow' : ∀ ext, (m :: rest) ++ ext ≠ e :: pat2 := by
              intro ext hext
              exact hnotBelow ext (by rw [List.cons_append, hext])
            have habove' : ∀ ext, (e :: pat2) ++ ext ≠ m :: rest := by
              intro ext hext
              exact hnotAbove ext (by rw [List.cons_append, hext])
            simp only [getPath, findEntry_setEntry_self, hfe,
              copy2At_frame (m :: rest) sub sub2 c hs2 (e :: pat2) (by simp)
                hbelow' habove']
        · simp only [getPath, findEntry_setEntry_ne es k, findEntry_setEntry_ne es n k sub2 hk]

/-- Claim C5: a raw `moved a→b` notification is logged by the producer as
exactly two lines — a `deleted` line for `a` immediately followed by a
`moved` line carrying `b`, in that order — and replaying the two decomposed
events leaves the replica with `a` absent and `b` present with content equal
to the source's `b`.  Hypotheses: the two re-rooted paths are distinct and
non-root, the source currently holds a readable file at `b = pbp ++ [bn]`,
and after the deletion the replica still has `b`'s parent directory `pbp`
with no directory sitting at `b` itself (otherwise the copy fails or lands
inside that directory and is merely recorded as an error). -/
theorem c5_move_decomposition (a b : List Char) (dr : List String) (src r : Node)
    (pa pbp : List String) (bn : String) (c : List Nat) (q : List (String × Node))
    (hpa : pa ≠ []) (hne : pa ≠ pbp ++ [bn])
    (hsrc : getPath src (pbp ++ [bn]) = some (.file c true))
    (hq : getPath ((handle_event dr src r ("deleted", pa)).1) pbp = some (.dir q))
    (hnd : ∀ d, findEntry q bn ≠ some (.dir d)) :
    log_event { event_type := chars "moved", src_path := a, dest_path := b } =
      [chars "Event type: deleted: " ++ a, chars "Event type: moved: " ++ b] ∧
    contentAt (replayEvents dr src r [("deleted", pa), ("moved", pbp ++ [bn])])
      (pbp ++ [bn]) = some c ∧
    getPath (replayEvents dr src r [("deleted", pa), ("moved", pbp ++ [bn])]) pa = none := by
  have hprod : log_event { event_type := chars "moved", src_path := a, dest_path := b } =
      [chars "Event type: deleted: " ++ a, chars "Event type: moved: " ++ b] := by
    have h1 : chars "Event type: " ++ chars "moved" ++ chars ": " =
        chars "Event type: moved: " := by decide
    simp [log_event, ← h1]
  refine ⟨hprod, ?_⟩
  have main : ∀ r₁ : Node, getPath r₁ pa = none → getPath r₁ pbp = some (.dir q) →
      contentAt ((handle_event dr src r₁ ("moved", pbp ++ [bn])).1) (pbp ++ [bn]) = some c ∧
      getPath ((handle_event dr src r₁ ("moved", pbp ++ [bn])).1) pa = none := by
    intro r₁ hr1 hq1
    have hgb : getPath r₁ (pbp ++ [bn]) = findEntry q bn := by
      rw [getPath_append pbp [bn] _, hq1]
      cases hfb : findEntry q bn <;> simp [getPath, hfb]
    have hcopy : ∀ t', copy2At r₁ (pbp ++ [bn]) c true = some t' →
        getPath t' (pbp ++ [bn]) = some (.file c true) →
        contentAt t' (pbp ++ [bn]) = some c ∧ getPath t' pa = none := by
      intro t' ht' hgt
      refine ⟨by simp [contentAt, hgt], ?_⟩
      by_cases hbelow : ∃ ext, (pbp ++ [bn]) ++ ext = pa
      · rcases hbelow with ⟨ext, hext⟩
        cases ext with
        | nil => exact absurd (by simpa using hext.symm) hne
        | cons e es =>
          rw [← hext, getPath_append, hgt]
          simp [getPath]
      · by_cases habove : ∃ ext, pa ++ ext = pbp ++ [bn]
        · rcases habove with ⟨ext, hext⟩
          cases ext with
          | nil => exact absurd (by simpa using hext) hne
          | cons e es =>
            have hlen : pa.length ≤ pbp.length := by
              have h5 := congrArg List.length hext
              simp at h5
              omega
            have hs : List.take pa.length pbp = pa := by
              have h3 := congrArg (fun l => List.take pa.length l) hext
              simp only [List.take_left, List.take_append_of_le_length hlen] at h3
              exact h3.symm
            have hpbp : pbp = pa ++ pbp.drop pa.length :=
              ((congrArg (fun x => x ++ pbp.drop pa.length) hs.symm).trans
                (List.take_append_drop _ pbp)).symm
            rw [hpbp, getPath_append, hr1] at hq1
            simp at hq1
        · rw [copy2At_frame (pbp ++ [bn]) _ t' c ht' pa hpa
            (fun ext hext => hbelow ⟨ext, hext⟩) (fun ext hext => habove ⟨ext, hext⟩)]
          exact hr1
    cases hfb : findEntry q bn with
    | none =>
      rcases copy2At_ok pbp r₁ q bn c hq1 hnd with ⟨t', ht', hgt⟩
      have hres : (handle_event dr src r₁ ("moved", pbp ++ [bn])).1 = t' := by
        rw [hfb] at hgb
        simp [handle_event, hsrc, hgb, ht']
      rw [hres]
      exact hcopy t' ht' hgt
    | some u =>
      cases u with
      | dir d => exact absurd hfb (hnd d)
      | file c' rd' =>
        rw [hfb] at hgb
        by_cases hmd : (some c : Option (List Nat)) = calculate_md5 (some (.file c' rd'))
        · have hcr : rd' = true ∧ c' = c := by
            cases rd' with
            | false => simp [calculate_md5] at hmd
            | true =>
              simp only [calculate_md5, Option.some.injEq] at hmd
              exact ⟨rfl, hmd.symm⟩
          obtain ⟨rfl, rfl⟩ := hcr
          have hres : (handle_event dr src r₁ ("moved", pbp ++ [bn])).1 = r₁ := by
            simp [handle_event, hsrc, hgb, calculate_md5]
          rw [hres]
          refine ⟨?_, hr1⟩
          simp [contentAt, hgb]
        · rcases copy2At_ok pbp r₁ q bn c hq1 hnd with ⟨t', ht', hgt⟩
          have hres : (handle_event dr src r₁ ("moved", pbp ++ [bn])).1 = t' := by
            cases rd' with
            | true =>
              have hcc : ¬ (some c : Option (List Nat)) = some c' := by
                simpa [calculate_md5] using hmd
              have hcc' : ¬ c = c' := fun h => hcc (by rw [h])
              simp [handle_event, hsrc, hgb, calculate_md5, hcc', ht']
            | false =>
              simp [handle_event, hsrc, hgb, calculate_md5, ht']
          rw [hres]
          exact hcopy t' ht' hgt
  have hre : replayEvents dr src r [("deleted", pa), ("moved", pbp ++ [bn])] =
      (handle_event dr src ((handle_event dr src r ("deleted", pa)).1)
        ("moved", pbp ++ [bn])).1 := by
    simp [replayEvents, List.foldl]
  rw [hre]
  exact main ((handle_event dr src r ("deleted", pa)).1)
    (handle_deleted_absent dr src r pa hpa) hq

theorem c5_move_decomposition_witness :
    log_event ⟨chars "moved", chars "/s/a", chars "/s/b"⟩ =
      [chars "Event type: deleted: " ++ chars "/s/a",
       chars "Event type: moved: " ++ chars "/s/b"] ∧
    contentAt (replayEvents [] (.dir [("a", .file [1] true), ("b", .file [2] true)])
      (.dir [("a", .file [1] true)]) [("deleted", ["a"]), ("moved", ["b"])]) ["b"]
      = some [2] ∧
    getPath (replayEvents [] (.dir [("a", .file [1] true), ("b", .file [2] true)])
      (.dir [("a", .file [1] true)]) [("deleted", ["a"]), ("moved", ["b"])]) ["a"]
      = none :=
  c5_move_decomposition (chars "/s/a") (chars "/s/b") []
    (.dir [("a", .file [1] true), ("b", .file [2] true)]) (.dir [("a", .file [1] true)])
    ["a"] [] "b" [2] [] (by decide) (by decide) (by decide) (by decide)
    (fun d h => nomatch h)

/-! ## Claim C9 -/

theorem leadsWith_append : ∀ (xs ys : List Char), leadsWith xs (xs ++ ys) = true
  | [], _ => rfl
  | x :: xs, ys => by simp [leadsWith, leadsWith_append xs ys]

theorem chars_eventType :
    chars "Event type: " = ['E', 'v', 'e', 'n', 't', ' ', 't', 'y', 'p', 'e', ':', ' '] := rfl

theorem splitKindPath_spec : ∀ (k acc p : List Char), ':' ∉ k → p ≠ [] →
    (acc ≠ [] ∨ k ≠ []) →
    splitKindPath acc (k ++ ':' :: ' ' :: p) = some (acc.reverse ++ k, p)
  | [], acc, p => by
    intro hk hp hne
    have hacc : acc ≠ [] := by
      rcases hne with h | h
      · exact h
      · exact absurd rfl h
    simp [splitKindPath, hacc, hp]
  | c :: k', acc, p => by
    intro hk hp _
    have hc : ¬ c = ':' := fun h => hk (by rw [← h]; exact List.mem_cons_self c k')
    rw [List.cons_append, splitKindPath, if_neg (fun hcond => hc hcond.1),
      splitKindPath_spec k' (c :: acc) p (fun hm => hk (List.mem_cons_of_mem c hm)) hp
        (Or.inl (by simp))]
    simp

theorem matchLine_spec : ∀ (pre : List Char), 'E' ∉ pre → ∀ (k p : List Char),
    k ≠ [] → ':' ∉ k → p ≠ [] →
    matchLine (pre ++ (chars "Event type: " ++ (k ++ ':' :: ' ' :: p))) = some (k, p)
  | [], hpre, k, p, hk, hkc, hp => by
    rw [List.nil_append]
    have hlw := leadsWith_append (chars "Event type: ") (k ++ ':' :: ' ' :: p)
    have h12 : (chars "Event type: ").length = 12 := rfl
    have hdrop : (chars "Event type: " ++ (k ++ ':' :: ' ' :: p)).drop 12 =
        k ++ ':' :: ' ' :: p := by
      rw [← h12, List.drop_left]
    have hsplit := splitKindPath_spec k [] p hkc hp (Or.inr hk)
    cases hL : chars "Event type: " ++ (k ++ ':' :: ' ' :: p) with
    | nil => simp [chars_eventType] at hL
    | cons c0 rest0 =>
      rw [hL] at hlw hdrop
      rw [matchLine, if_pos hlw, hdrop, hsplit]
      simp
  | c :: pre', hpre, k, p, hk, hkc, hp => by
    have hc : ¬ ('E' = c) := fun h => hpre (by rw [h]; exact List.mem_cons_self c pre')
    have hbe : ('E' == c) = false := by
      simp [hc]
    have hlw : leadsWith (chars "Event type: ")
        (c :: (pre' ++ (chars "Event type: " ++ (k ++ ':' :: ' ' :: p)))) = false := by
      rw [chars_eventType]
      simp [leadsWith, hbe]
    rw [List.cons_append, matchLine, if_neg (by simp [hlw])]
    exact matchLine_spec pre' (fun hm => hpre (List.mem_cons_of_mem c hm)) k p hk hkc hp

theorem deleted_line (sp : List Char) :
    chars "Event type: deleted: " ++ sp =
      chars "Event type: " ++ (chars "deleted" ++ ':' :: ' ' :: sp) := by
  have h : chars "Event type: deleted: " =
      chars "Event type: " ++ (chars "deleted" ++ [':', ' ']) := by decide
  rw [h]
  simp

theorem assoc_line (k sp : List Char) :
    chars "Event type: " ++ k ++ chars ": " ++ sp =
      chars "Event type: " ++ (k ++ ':' :: ' ' :: sp) := by
  simp [List.append_assoc]
  rfl

/-- Claim C9: the event-log text protocol round-trips — for every sequence
of raw notifications, the lines `log_event` writes (each stamped by the
logger with a timestamp prefix containing no `E`), parsed back by
`parse_event_log`, yield exactly the `(kind, path)` pairs written, in
occurrence order (`Moved` as its two decomposed pairs). -/
theorem c9_round_trip : ∀ (evs : List RawEvent) (prefixes : List (List Char)),
    prefixes.length = (evs.flatMap log_event).length →
    (∀ s ∈ prefixes, 'E' ∉ s) →
    (∀ e ∈ evs, okEvent e) →
    parse_event_log (List.zipWith (fun pre l => pre ++ l) prefixes (evs.flatMap log_event))
      = evs.flatMap writtenPairs
  | [], prefixes => by
    intro hlen _ _
    cases prefixes with
    | nil => rfl
    | cons q ps => simp at hlen
  | e :: tl, prefixes => by
    intro hlen hpre hok
    have hoke := hok e (List.mem_cons_self _ _)
    obtain ⟨hk1, hk2, hk3, hk4⟩ := hoke
    by_cases hm : e.event_type = chars "moved"
    · have hbind : (e :: tl).flatMap log_event =
          (chars "Event type: deleted: " ++ e.src_path) ::
          (chars "Event type: " ++ e.event_type ++ chars ": " ++ e.dest_path) ::
          tl.flatMap log_event := by
        simp [log_event, hm]
      rw [hbind] at hlen ⊢
      cases prefixes with
      | nil => simp at hlen
      | cons q1 ps =>
        cases ps with
        | nil => simp at hlen
        | cons q2 rest =>
          have h1 : matchLine (q1 ++ (chars "Event type: deleted: " ++ e.src_path)) =
              some (chars "deleted", e.src_path) := by
            rw [deleted_line]
            exact matchLine_spec q1 (hpre q1 (by simp)) (chars "deleted") e.src_path
              (by decide) (by decide) hk3
          have h2 : matchLine
              (q2 ++ (chars "Event type: " ++ e.event_type ++ chars ": " ++ e.dest_path)) =
              some (e.event_type, e.dest_path) := by
            rw [assoc_line]
            exact matchLine_spec q2 (hpre q2 (by simp)) e.event_type e.dest_path hk1 hk2 hk4
          have hrec := c9_round_trip tl rest (by simpa using hlen)
            (fun s hs => hpre s (by simp [hs])) (fun x hx => hok x (by simp [hx]))
          simp only [List.zipWith, parse_event_log, List.filterMap_cons, h1, h2] at hrec ⊢
          rw [hrec]
          simp [writtenPairs, hm]
    · have hbind : (e :: tl).flatMap log_event =
          (chars "Event type: " ++ e.event_type ++ chars ": " ++ e.src_path) ::
          tl.flatMap log_event := by
        simp [log_event, hm]
      rw [hbind] at hlen ⊢
      cases prefixes with
      | nil => simp at hlen
      | cons q1 rest =>
        have h1 : matchLine
            (q1 ++ (chars "Event type: " ++ e.event_type ++ chars ": " ++ e.src_path)) =
            some (e.event_type, e.src_path) := by
          rw [assoc_line]
          exact matchLine_spec q1 (hpre q1 (by simp)) e.event_type e.src_path hk1 hk2 hk3
        have hrec := c9_round_trip tl rest (by simpa using hlen)
          (fun s hs => hpre s (by simp [hs])) (fun x hx => hok x (by simp [hx]))
        simp only [List.zipWith, parse_event_log, List.filterMap_cons, h1] at hrec ⊢
        rw [hrec]
        simp [writtenPairs, hm]

theorem c9_round_trip_witness :
    parse_event_log (List.zipWith (fun pre l => pre ++ l)
      [chars "1 - ", chars "2 - "]
      (([⟨chars "moved", chars "/s/x", chars "/s/y"⟩] : List RawEvent).flatMap log_event))
      = [(chars "deleted", chars "/s/x"), (chars "moved", chars "/s/y")] :=
  c9_round_trip [⟨chars "moved", chars "/s/x", chars "/s/y"⟩]
    [chars "1 - ", chars "2 - "] (by decide) (by decide)
    (fun e he => by
      simp only [List.mem_singleton] at he
      subst he
      exact ⟨by decide, by decide, by decide, by decide⟩)

/-! ## Claims C1 and C8: supporting lemmas -/

theorem eraseDups_loop_sube : ∀ (as bs : List String) (a : String),
    a ∈ List.eraseDups.loop as bs → a ∈ as ∨ a ∈ bs
  | [], bs, a => by
    intro h
    rw [List.eraseDups.loop] at h
    exact Or.inr (by simpa using h)
  | x :: as, bs, a => by
    intro h
    rw [List.eraseDups.loop] at h
    split at h
    · rcases eraseDups_loop_sube as bs a h with h' | h'
      · exact Or.inl (List.mem_cons_of_mem _ h')
      · exact Or.inr h'
    · rcases eraseDups_loop_sube as (x :: bs) a h with h' | h'
      · exact Or.inl (List.mem_cons_of_mem _ h')
      · rcases List.mem_cons.mp h' with rfl | h''
        · exact Or.inl (List.mem_cons_self _ _)
        · exact Or.inr h''

theorem extraNames_nil_of_subset (l names : List String)
    (h : ∀ k ∈ l, names.contains k = true) : extraNames l names = [] := by
  unfold extraNames
  rw [List.filter_eq_nil_iff]
  intro a ha
  rcases eraseDups_loop_sube l [] a (by simpa [List.eraseDups] using ha) with h' | h'
  · simp only [decide_not, Bool.not_eq_true', decide_eq_false_iff_not, Decidable.not_not]
    exact h a h'
  · cases h'

theorem findEntry_isSome_iff : ∀ (es : List (String × Node)) (n : String),
    (findEntry es n).isSome = true ↔ n ∈ es.map Prod.fst
  | [], n => by simp [findEntry]
  | (a, u) :: rest, n => by
    by_cases ha : a = n
    · subst ha
      simp [findEntry]
    · have ha' : ¬ n = a := fun hh => ha hh.symm
      simp [findEntry, ha, ha', findEntry_isSome_iff rest n]

theorem findEntry_filter_of : ∀ (es : List (String × Node)) (p : String × Node → Bool)
    (n : String), (∀ u, p (n, u) = true) →
    findEntry (es.filter p) n = findEntry es n
  | [], p, n => by intro _; rfl
  | (a, u) :: rest, p, n => by
    intro hp
    by_cases ha : a = n
    · subst ha
      rw [List.filter_cons, hp u]
      simp [findEntry, findEntry_filter_of rest p a hp]
    · cases hpa : p (a, u) with
      | true =>
        rw [List.filter_cons, hpa]
        simp [findEntry, ha, findEntry_filter_of rest p n hp]
      | false =>
        rw [List.filter_cons, hpa]
        simp [findEntry, ha, findEntry_filter_of rest p n hp]

theorem setEntry_self_of_findEntry : ∀ (es : List (String × Node)) (n : String) (v : Node),
    findEntry es n = some v → setEntry es n v = es
  | [], n, v => by simp [findEntry]
  | (a, u) :: rest, n, v => by
    intro h
    by_cases ha : a = n
    · subst ha
      rw [findEntry, if_pos rfl] at h
      cases h
      simp [setEntry]
    · rw [findEntry, if_neg ha] at h
      rw [setEntry, if_neg ha, setEntry_self_of_findEntry rest n v h]

theorem fsyncFwd_iff : ∀ (ses es' : List (String × Node)),
    fsyncFwd ses es' = true ↔
      ∀ n t, (n, t) ∈ ses → ∃ t', findEntry es' n = some t' ∧ fsync t t' = true
  | [], es' => by simp [fsyncFwd]
  | (n, t) :: rest, es' => by
    rw [fsyncFwd, Bool.and_eq_true, fsyncFwd_iff rest es']
    constructor
    · rintro ⟨h1, h2⟩ n' t' hmem
      rcases List.mem_cons.mp hmem with heq | hmem'
      · cases heq
        cases hfe : findEntry es' n with
        | none => rw [hfe] at h1; cases h1
        | some u =>
          rw [hfe] at h1
          exact ⟨u, rfl, h1⟩
      · exact h2 n' t' hmem'
    · intro hall
      constructor
      · rcases hall n t (List.mem_cons_self _ _) with ⟨u, hu, hf⟩
        rw [hu]
        exact hf
      · exact fun n' t' hmem' => hall n' t' (List.mem_cons_of_mem _ hmem')

mutual

theorem fsync_mirrors : ∀ (s r : Node), fsync s r = true → mirrors s r = true
  | .file c rd, .file c' rd' => by
    intro h
    simp only [fsync, Bool.and_eq_true] at h
    simp [mirrors, h.2]
  | .file _ _, .dir _ => by simp [fsync]
  | .dir _, .file _ _ => by simp [fsync]
  | .dir ses, .dir res => by
    rw [fsync, mirrors, Bool.and_eq_true, Bool.and_eq_true]
    rintro ⟨h1, h2⟩
    exact ⟨fsyncFwd_mirrorsFwd ses res h1, h2⟩

theorem fsyncFwd_mirrorsFwd : ∀ (ses res : List (String × Node)),
    fsyncFwd ses res = true → mirrorsFwd ses res = true
  | [], res => by simp [fsyncFwd, mirrorsFwd]
  | (n, t) :: rest, res => by
    rw [fsyncFwd, mirrorsFwd, Bool.and_eq_true, Bool.and_eq_true]
    rintro ⟨h1, h2⟩
    refine ⟨?_, fsyncFwd_mirrorsFwd rest res h2⟩
    cases hfe : findEntry res n with
    | none => rw [hfe] at h1; cases h1
    | some u =>
      rw [hfe] at h1
      exact fsync_mirrors t u h1

end

theorem fileStep_noerr (dp : List String) (n : String) (c : List Nat) (rd : Bool)
    (destEs : List (String × Node)) (h1 : fileMd5Err c rd destEs n = false)
    (h2 : (fileStep dp n c rd destEs).2.2.1 = false) :
    rd = true ∧ findEntry (fileStep dp n c rd destEs).1 n = some (.file c true) := by
  cases hfe : findEntry destEs n with
  | none =>
    cases rd with
    | false => simp [fileStep, hfe] at h2
    | true =>
      refine ⟨rfl, ?_⟩
      simp [fileStep, hfe, copy2Entry, findEntry_setEntry_self]
  | some d0 =>
    rw [fileMd5Err, hfe] at h1
    cases d0 with
    | dir _ => simp [calculate_md5] at h1
    | file c0 rd0 =>
      cases rd with
      | false => simp [calculate_md5] at h1
      | true =>
        cases rd0 with
        | false => simp [calculate_md5] at h1
        | true =>
          by_cases hc : c = c0
          · subst hc
            refine ⟨rfl, ?_⟩
            simp [fileStep, hfe, calculate_md5]
          · refine ⟨rfl, ?_⟩
            simp [fileStep, hfe, calculate_md5, hc, copy2Entry, findEntry_setEntry_self]

theorem fileStep_synced (dp : List String) (n : String) (c : List Nat)
    (destEs : List (String × Node)) (hfe : findEntry destEs n = some (.file c true)) :
    fileStep dp n c true destEs = (destEs, 0, false, []) ∧
    fileMd5Err c true destEs n = false := by
  constructor
  · simp [fileStep, hfe, calculate_md5]
  · simp [fileMd5Err, hfe, calculate_md5]

/-- Assembling `fsync` for the directory built from the copy-phase listing
followed by the deletion filter. -/
theorem fsync_assemble (ses items : List (String × Node))
    (h1 : ∀ n t, (n, t) ∈ ses → ∃ t', findEntry items n = some t' ∧ fsync t t' = true) :
    fsync (.dir ses)
      (.dir (items.filter (fun q => (ses.map Prod.fst).contains q.1))) = true := by
  rw [fsync, Bool.and_eq_true]
  constructor
  · rw [fsyncFwd_iff]
    intro n t hmem
    rcases h1 n t hmem with ⟨t', hft, hfs⟩
    refine ⟨t', ?_, hfs⟩
    rw [findEntry_filter_of _ _ n (fun u => ?_), hft]
    have : n ∈ ses.map Prod.fst := List.mem_map_of_mem Prod.fst hmem
    exact List.elem_iff.mpr this
  · rw [keysCovered, List.all_eq_true]
    intro k hk
    rcases List.mem_map.mp hk with ⟨q, hq, rfl⟩
    have hmem := (List.mem_filter.mp hq).2
    have : q.1 ∈ ses.map Prod.fst := List.elem_iff.mp (by simpa using hmem)
    exact (findEntry_isSome_iff ses q.1).mpr this

mutual

/-- A completed `sync_folders` pass that logged no per-item error leaves the
replica fully synchronized with the source. -/
theorem sync_folders_fsync : ∀ (dp : List String) (src : Node) (dest : Option Node)
    (res : SyncResult), sync_folders dp src dest = .ok res → res.errored = false →
    wfNode src = true → fsync src res.tree = true
  | dp, .file _ _, dest, res => by intro h; cases h
  | dp, .dir ses, none, res => by
    intro h herr hwf
    simp only [wfNode, Bool.and_eq_true] at hwf
    rcases hc : syncChildren dp ses [] with e | cr
    · rw [sync_folders, hc] at h
      simp only [bind, Except.bind] at h
      cases h
    · rw [sync_folders, hc] at h
      simp only [bind, Except.bind, pure, Except.pure] at h
      cases h
      exact fsync_assemble ses cr.items
        (syncChildren_fsync dp ses [] cr hc herr hwf.1 hwf.2).1
  | dp, .dir ses, some (.file _ _), res => by intro h; cases h
  | dp, .dir ses, some (.dir es), res => by
    intro h herr hwf
    simp only [wfNode, Bool.and_eq_true] at hwf
    rcases hc : syncChildren dp ses es with e | cr
    · rw [sync_folders, hc] at h
      simp only [bind, Except.bind] at h
      cases h
    · rw [sync_folders, hc] at h
      simp only [bind, Except.bind, pure, Except.pure] at h
      cases h
      exact fsync_assemble ses cr.items
        (syncChildren_fsync dp ses es cr hc herr hwf.1 hwf.2).1

/-- The copy phase with no logged error establishes a fully synced entry for
every source name and leaves other names untouched. -/
theorem syncChildren_fsync : ∀ (dp : List String) (ses destEs : List (String × Node))
    (cr : ChildrenResult), syncChildren dp ses destEs = .ok cr → cr.errored = false →
    nodupKeys (ses.map Prod.fst) = true → wfEntries ses = true →
    (∀ n t, (n, t) ∈ ses → ∃ t', findEntry cr.items n = some t' ∧ fsync t t' = true) ∧
    (∀ m, ¬ m ∈ ses.map Prod.fst → findEntry cr.items m = findEntry destEs m)
  | dp, [], destEs, cr => by
    intro h _ _ _
    rw [syncChildren] at h
    simp only [pure, Except.pure] at h
    cases h
    exact ⟨fun n t hmem => absurd hmem (List.not_mem_nil _), fun m _ => rfl⟩
  | dp, (n, t) :: rest, destEs, cr => by
    intro h herr hnd hwf
    simp only [List.map, nodupKeys, Bool.and_eq_true, Bool.not_eq_true'] at hnd
    simp only [wfEntries, Bool.and_eq_true] at hwf
    have hrestne : ∀ m, m ∈ rest.map Prod.fst → ¬ m = n := by
      intro m hm heq
      rw [heq] at hm
      have h1 : (rest.map Prod.fst).contains n = true := List.elem_iff.mpr hm
      rw [hnd.1] at h1
      cases h1
    cases t with
    | dir d =>
      rcases hs : sync_folders (dp ++ [n]) (.dir d) (findEntry destEs n) with e | sub
      · rw [syncChildren, hs] at h
        simp only [bind, Except.bind] at h
        cases h
      · rw [syncChildren, hs] at h
        simp only [bind, Except.bind] at h
        rcases ht : syncChildren dp rest (setEntry destEs n sub.tree) with e | tl
        · rw [ht] at h
          simp only [bind, Except.bind] at h
          cases h
        · rw [ht] at h
          simp only [bind, Except.bind, pure, Except.pure] at h
          cases h
          have herr' : sub.errored = false ∧ tl.errored = false := by simpa using herr
          have hsub := sync_folders_fsync (dp ++ [n]) (.dir d) (findEntry destEs n) sub
            hs herr'.1 hwf.1
          have hrec := syncChildren_fsync dp rest (setEntry destEs n sub.tree) tl ht
            herr'.2 hnd.2 hwf.2
          constructor
          · intro n' t' hmem
            rcases List.mem_cons.mp hmem with heq | hmem'
            · cases heq
              refine ⟨sub.tree, ?_, hsub⟩
              rw [hrec.2 n (fun hm => (hrestne n hm) rfl), findEntry_setEntry_self]
            · exact hrec.1 n' t' hmem'
          · intro m hm
            have hm1 : ¬ m = n := fun he => hm (by simp [he])
            have hm2 : ¬ m ∈ rest.map Prod.fst := fun he => hm (by simp [he])
            rw [hrec.2 m hm2, findEntry_setEntry_ne destEs n m _ hm1]
    | file c rd =>
      rcases ht : syncChildren dp rest (fileStep dp n c rd destEs).1 with e | tl
      · simp only [syncChildren] at h
        rw [ht] at h
        simp only [bind, Except.bind] at h
        cases h
      · simp only [syncChildren] at h
        rw [ht] at h
        simp only [bind, Except.bind, pure, Except.pure] at h
        cases h
        have herr' : (fileMd5Err c rd destEs n = false ∧
            (fileStep dp n c rd destEs).2.2.1 = false) ∧ tl.errored = false := by
          simpa using herr
        obtain ⟨⟨he1, he2⟩, he3⟩ := herr'
        obtain ⟨hrd, hfs⟩ := fileStep_noerr dp n c rd destEs he1 he2
        have hrec := syncChildren_fsync dp rest _ tl ht he3 hnd.2 hwf.2
        constructor
        · intro n' t' hmem
          rcases List.mem_cons.mp hmem with heq | hmem'
          · cases heq
            refine ⟨.file c true, ?_, ?_⟩
            · rw [hrec.2 n (fun hm => (hrestne n hm) rfl), hfs]
            · subst hrd
              simp [fsync]
          · exact hrec.1 n' t' hmem'
        · intro m hm
          have hm1 : ¬ m = n := fun he => hm (by simp [he])
          have hm2 : ¬ m ∈ rest.map Prod.fst := fun he => hm (by simp [he])
          rw [hrec.2 m hm2, fileStep_findEntry_ne dp n c rd destEs m hm1]

end

mutual

/-- Running `sync_folders` over a fully synchronized pair performs no copy,
no delete, no write, logs no error, and leaves the replica unchanged. -/
theorem sync_folders_resync : ∀ (dp : List String) (ses : List (String × Node)) (r : Node),
    fsync (.dir ses) r = true →
    sync_folders dp (.dir ses) (some r) =
      .ok { tree := r, copies := 0, deletes := 0, errored := false, writes := [] }
  | dp, ses, .file _ _ => by intro h; simp [fsync] at h
  | dp, ses, .dir res => by
    intro h
    rw [fsync, Bool.and_eq_true] at h
    have hyp := (fsyncFwd_iff ses res).mp h.1
    have hcr := syncChildren_resync dp ses res hyp
    have hkeys : ∀ k, k ∈ res.map Prod.fst → (ses.map Prod.fst).contains k = true := by
      intro k hk
      have := (List.all_eq_true.mp h.2) k hk
      exact List.elem_iff.mpr ((findEntry_isSome_iff ses k).mp (by simpa using this))
    have hfilter : res.filter (fun q => (ses.map Prod.fst).contains q.1) = res := by
      rw [List.filter_eq_self]
      intro q hq
      exact hkeys q.1 (List.mem_map_of_mem Prod.fst hq)
    have hdel : extraNames (res.map Prod.fst) (ses.map Prod.fst) = [] :=
      extraNames_nil_of_subset _ _ hkeys
    rw [sync_folders, hcr]
    simp only [bind, Except.bind, pure, Except.pure]
    rw [hfilter, hdel]
    simp

/-- The copy phase over a fully synchronized listing does nothing. -/
theorem syncChildren_resync : ∀ (dp : List String) (ses destEs : List (String × Node)),
    (∀ n t, (n, t) ∈ ses → ∃ t', findEntry destEs n = some t' ∧ fsync t t' = true) →
    syncChildren dp ses destEs =
      .ok { items := destEs, copies := 0, deletes := 0, errored := false, writes := [] }
  | dp, [], destEs => by intro _; rfl
  | dp, (n, t) :: rest, destEs => by
    intro hyp
    obtain ⟨t', hfe, hfs⟩ := hyp n t (List.mem_cons_self _ _)
    have hrest : ∀ n' t'', (n', t'') ∈ rest →
        ∃ u, findEntry destEs n' = some u ∧ fsync t'' u = true :=
      fun n' t'' hm => hyp n' t'' (List.mem_cons_of_mem _ hm)
    have hrec := syncChildren_resync dp rest destEs hrest
    cases t with
    | dir d =>
      cases t' with
      | file _ _ => simp [fsync] at hfs
      | dir d' =>
        have hsub := sync_folders_resync (dp ++ [n]) d (.dir d') hfs
        have hset : setEntry destEs n (.dir d') = setEntry destEs n (.dir d') := rfl
        rw [syncChildren, hfe, hsub]
        simp only [bind, Except.bind, pure, Except.pure]
        rw [setEntry_self_of_findEntry destEs n (.dir d') hfe, hrec]
        simp
    | file c rd =>
      cases t' with
      | dir _ => simp [fsync] at hfs
      | file c' rd' =>
        have h3 : (rd = true ∧ rd' = true) ∧ c = c' := by
          simpa [fsync, Bool.and_eq_true] using hfs
        obtain ⟨⟨h31, h32⟩, h33⟩ := h3
        subst h31
        subst h32
        subst h33
        obtain ⟨hstep, hmd⟩ := fileStep_synced dp n c destEs hfe
        simp only [syncChildren]
        rw [hstep, hmd, hrec]
        simp

end

/-- Claim C1: after one complete `sync_folders` pass (it returned instead of
crashing) with no concurrent mutation — the model is sequential — and no
per-item I/O failure (no error was logged: `errored = false`), the replica
tree is byte-for-byte identical to the source tree: the same set of entry
names at every directory level and equal content fingerprints at every file
(`mirrors`). -/
theorem c1_convergence (dp : List String) (src : Node) (dest : Option Node)
    (res : SyncResult) (h : sync_folders dp src dest = .ok res)
    (herr : res.errored = false) (hwf : wfNode src = true) :
    mirrors src res.tree = true :=
  fsync_mirrors src res.tree (sync_folders_fsync dp src dest res h herr hwf)

theorem c1_convergence_witness :
    mirrors (.dir [("a", .file [1] true), ("d", .dir [])])
      (.dir [("a", .file [1] true), ("d", .dir [])]) = true :=
  c1_convergence [] (.dir [("a", .file [1] true), ("d", .dir [])]) none
    { tree := .dir [("a", .file [1] true), ("d", .dir [])], copies := 1, deletes := 0,
      errored := false, writes := [[], ["a"], ["d"]] } (by decide) (by decide) (by decide)

/-- Claim C8: running `sync_folders` a second time over the same source and
the replica a first failure-free run produced performs no copy and no delete
operation (and in fact no filesystem write at all): the second run returns
the replica unchanged with zero counts. -/
theorem c8_idempotent (dp : List String) (src : Node) (dest : Option Node)
    (res : SyncResult) (h : sync_folders dp src dest = .ok res)
    (herr : res.errored = false) (hwf : wfNode src = true) :
    sync_folders dp src (some res.tree) =
      .ok { tree := res.tree, copies := 0, deletes := 0, errored := false,
            writes := [] } := by
  cases src with
  | file c rd => cases h
  | dir ses =>
    exact sync_folders_resync dp ses res.tree
      (sync_folders_fsync dp (.dir ses) dest res h herr hwf)

theorem c8_idempotent_witness :
    sync_folders [] (.dir [("a", .file [1] true), ("d", .dir [])])
      (some (.dir [("a", .file [1] true), ("d", .dir [])])) =
      .ok { tree := .dir [("a", .file [1] true), ("d", .dir [])], copies := 0,
            deletes := 0, errored := false, writes := [] } :=
  c8_idempotent [] (.dir [("a", .file [1] true), ("d", .dir [])]) none
    { tree := .dir [("a", .file [1] true), ("d", .dir [])], copies := 1, deletes := 0,
      errored := false, writes := [[], ["a"], ["d"]] } (by decide) (by decide) (by decide)

end FolderSync